import Mathlib

/-!
Shallow embedding of the product-space FEM boundary-condition core
(`product_fem/boundary_conditions.py` and the dispatch part of
`product_fem/solvers.py`).

Scalars are modelled as rationals (the Python code performs no arithmetic in
the boundary-application paths beyond writing the constants 0 and 1 and the
values returned by the boundary-value function, so exact arithmetic is a
faithful model).  Matrices are lists of rows; vectors are lists of scalars.
Python exceptions are modelled with `Except PyErr`; a Python function that
falls off its end (returning `None`) is modelled by an explicit result
constructor.
-/

namespace ProductFem

/-- Kinds of Python failures the embedded code can raise, together with the
error kinds named by the specification (`unsupported`, `dimensionMismatch`)
so that claims about them are statable.  The embedded code itself only ever
raises `indexError` (out-of-range row/vector writes) and
`unboundLocalError` (reading a loop variable that was never assigned). -/
inductive PyErr where
  | indexError
  | unboundLocalError
  | unsupported
  | dimensionMismatch
deriving DecidableEq, Repr

/-! ### Default product-boundary predicate

`default_product_boundary_1d(W, x, y)` and `default_product_boundary_2d`
share the same loop shape:

```python
for i_bdy in marginal_bc_dofs:
    x_bdy = near(x, W.dofmap.marginal_dof_coords[i_bdy])
    y_bdy = near(y, W.dofmap.marginal_dof_coords[i_bdy])
    on_bdy = x_bdy or y_bdy
    if on_bdy: break
return on_bdy
```

The marginal boundary-dof coordinates come from the external fenics
discretization (`DirichletBC(...).get_boundary_values().keys()` indexed into
`W.dofmap.marginal_dof_coords`); we take the resulting coordinate list as a
parameter.  Crucially, `on_bdy` is a loop-local variable: when the coordinate
list is empty the final `return on_bdy` reads an unassigned name and Python
raises `UnboundLocalError`. -/

/-- The shared loop of `default_product_boundary_1d`/`_2d`: iterate over the
marginal boundary-dof coordinates, breaking (returning `True`) as soon as the
per-coordinate test succeeds; after a completed loop the last computed
`on_bdy` (necessarily `false`) is returned; on an empty list the return
statement reads the never-assigned `on_bdy`. -/
def boundaryLoop {β : Type} (onB : β → Bool) : List β → Except PyErr Bool
  | [] => .error .unboundLocalError
  | c :: rest =>
    let on_bdy := onB c
    if on_bdy then .ok true
    else
      match rest with
      | [] => .ok on_bdy
      | _ :: _ => boundaryLoop onB rest

/-- `near2d(x, y, tol=3e-10)` from the source: `np.linalg.norm(x-y) < tol`.
Stated on squared distances, which is equivalent since both sides of the
comparison are nonnegative. -/
def near2d (x y : ℚ × ℚ) : Bool :=
  decide ((x.1 - y.1) ^ 2 + (x.2 - y.2) ^ 2 < ((3 : ℚ) / 10 ^ 10) ^ 2)

/-- `default_product_boundary_1d`.  The fenics `near` comparison is an
external collaborator and is taken as a parameter `nearF`;
`marginal_dof_coords` is the list of marginal boundary-dof coordinates the
loop ranges over. -/
def default_product_boundary_1d (nearF : ℚ → ℚ → Bool)
    (marginal_dof_coords : List ℚ) (x y : ℚ) : Except PyErr Bool :=
  boundaryLoop (fun c => nearF x c || nearF y c) marginal_dof_coords

/-- `default_product_boundary_2d`, using the repository's own `near2d`. -/
def default_product_boundary_2d (marginal_dof_coords : List (ℚ × ℚ))
    (x y : ℚ × ℚ) : Except PyErr Bool :=
  boundaryLoop (fun c => near2d x c || near2d y c) marginal_dof_coords

/-! ### ProductDirichletBC -/

/-- The state of a `ProductDirichletBC` after `__init__`: the dof-coordinate
table `W.tabulate_dof_coordinates()` (each entry a coordinate pair `(x, y)`,
with `α` the type of a single point), the boundary predicate
`self.on_boundary`, and the boundary-value function `self.boundary_values`
(already coerced from a constant if one was supplied). -/
structure ProductDirichletBC (α : Type) where
  dof_coords : List (α × α)
  on_boundary : α → α → Bool
  boundary_values : α → α → ℚ

/-- The enumeration loop of `get_product_boundary_dofs`:
`for ij, xy in enumerate(dof_coords): if on_boundary(*xy): append ij`,
with `i` the running `enumerate` counter. -/
def dofsAux {β : Type} (p : β → Bool) : ℕ → List β → List ℕ
  | _, [] => []
  | i, xy :: rest =>
    if p xy then i :: dofsAux p (i + 1) rest else dofsAux p (i + 1) rest

/-- `get_product_boundary_dofs`: the indices of the dof-coordinate table at
which the boundary predicate holds, in table order.  (The source also
computes `marginal_bdy_dofs` on its first line and never uses it; that dead
external call is omitted.) -/
def ProductDirichletBC.get_product_boundary_dofs {α : Type}
    (bc : ProductDirichletBC α) : List ℕ :=
  dofsAux (fun xy => bc.on_boundary xy.1 xy.2) 0 bc.dof_coords

/-- `get_product_boundary_coords`:
`[dof_coords[ij] for ij in prod_bdy_dofs]`.  All indices produced by
`get_product_boundary_dofs` are in range, so the `getD` default is never
read. -/
def ProductDirichletBC.get_product_boundary_coords {α : Type} [Inhabited α]
    (bc : ProductDirichletBC α) : List (α × α) :=
  bc.get_product_boundary_dofs.map (fun ij => bc.dof_coords.getD ij default)

/-- The boundary-value list `bvs = [boundary_values(*xy) for xy in
prod_bdy_coords]` computed inside `dense_apply`/`sparse_apply` (the spec's
`boundary_values()` sequence). -/
def ProductDirichletBC.bvs {α : Type} [Inhabited α]
    (bc : ProductDirichletBC α) : List ℚ :=
  bc.get_product_boundary_coords.map (fun xy => bc.boundary_values xy.1 xy.2)

/-! ### The row-replacement loop shared by `dense_apply` and `sparse_apply`

```python
for k, ij in enumerate(prod_bdy_dofs):
    A[ij] = e[ij]
    b[ij] = bvs[k]
```

`e` is an identity matrix of size `A.shape[0]` built before the loop, so
`e[ij]` (and the row write `A[ij] = ...`) raises `IndexError` when
`ij >= A.shape[0]`, and `b[ij] = ...` raises `IndexError` when
`ij >= len(b)`; the `A` write happens before the `b` write within an
iteration.  The loop is generic in the row representation `ρ` (dense rows
for `dense_apply`, per-row sparse entry lists for `sparse_apply`); `rowOf ij`
is the replacement row `e[ij]`. -/
def applyLoop {ρ : Type} (rowOf : ℕ → ρ) :
    List (ℕ × ℚ) → List ρ → List ℚ → Except PyErr (List ρ × List ℚ)
  | [], A, b => .ok (A, b)
  | (ij, v) :: rest, A, b =>
    if ij < A.length then
      let A' := A.set ij (rowOf ij)
      if ij < b.length then
        applyLoop rowOf rest A' (b.set ij v)
      else
        .error .indexError
    else
      .error .indexError

/-- Row `i` of `np.eye n`: 1 at column `i`, 0 elsewhere. -/
def eyeRow (n i : ℕ) : List ℚ :=
  (List.range n).map (fun j => if j = i then 1 else 0)

/-- `dense_apply(A, b)`: `e = np.eye(A.shape[0])`, then the row-replacement
loop over `zip(prod_bdy_dofs, bvs)` writing rows of `A` and entries of `b`
in place; returns the (mutated) `A, b`. -/
def ProductDirichletBC.dense_apply {α : Type} [Inhabited α]
    (bc : ProductDirichletBC α) (A : List (List ℚ)) (b : List ℚ) :
    Except PyErr (List (List ℚ) × List ℚ) :=
  applyLoop (fun ij => eyeRow A.length ij)
    (bc.get_product_boundary_dofs.zip bc.bvs) A b

/-! ### Sparse matrices -/

/-- The scipy sparse storage formats relevant here.  `sparse_apply` converts
its input to `lil`, edits rows, and converts the result to `csr`. -/
inductive SpFormat where
  | lil
  | csr
  | csc
  | coo
deriving DecidableEq, Repr

/-- A scipy sparse matrix: a column count, one entry list per row (column
index paired with stored value), and the storage-format tag.  Format
conversions (`tolil`, `tocsr`) preserve the represented entries. -/
structure SpMat where
  ncols : ℕ
  rows : List (List (ℕ × ℚ))
  fmt : SpFormat
deriving DecidableEq, Repr

/-- The scalar stored at column `j` of a sparse row: the value of the entry
with column index `j`, or 0 when no entry is stored there. -/
def rowVal (r : List (ℕ × ℚ)) (j : ℕ) : ℚ :=
  ((r.find? (fun p => p.1 == j)).map Prod.snd).getD 0

/-- A sparse row read back as a dense row of the given width. -/
def denseRowOf (n : ℕ) (r : List (ℕ × ℚ)) : List ℚ :=
  (List.range n).map (fun j => rowVal r j)

/-- The dense matrix a sparse matrix represents. -/
def SpMat.toDense (M : SpMat) : List (List ℚ) :=
  M.rows.map (denseRowOf M.ncols)

/-- `sparse_apply(A, b)`: `e = sps.eye(A.shape[0], format='lil')` (row `ij`
of which stores the single entry `(ij, 1)`), `A = A.tolil()` (same
represented entries), the row-replacement loop, then `return A.tocsr(), b`.
-/
def ProductDirichletBC.sparse_apply {α : Type} [Inhabited α]
    (bc : ProductDirichletBC α) (M : SpMat) (b : List ℚ) :
    Except PyErr (SpMat × List ℚ) :=
  match applyLoop (fun ij => [(ij, (1 : ℚ))])
      (bc.get_product_boundary_dofs.zip bc.bvs) M.rows b with
  | .ok (rows', b') => .ok ({ ncols := M.ncols, rows := rows', fmt := .csr }, b')
  | .error err => .error err

/-! ### Dispatch on the matrix representation -/

/-- The runtime representations `apply`/`solve` dispatch on: a numpy dense
array, a scipy sparse matrix, a PETSc matrix handle (opaque: the code never
inspects it), or any other object (matching none of the `isinstance`/
`issparse` tests). -/
inductive SysMat where
  | dense (rows : List (List ℚ))
  | sparse (M : SpMat)
  | petscMat
  | other
deriving DecidableEq, Repr

/-- What a call to `ProductDirichletBC.apply` can do: return a (matrix,
vector) pair, return Python `None`, or raise. -/
inductive ApplyResult where
  | ok (A : SysMat) (b : List ℚ)
  | pyNone
  | raised (err : PyErr)
deriving DecidableEq, Repr

/-- `apply(A, b)`:

```python
if sps.issparse(A):            return self.sparse_apply(A, b)
elif isinstance(A, np.ndarray): return self.dense_apply(A, b)
elif isinstance(A, PETSc.Mat):  return self.petsc_apply(A, b)
```

`petsc_apply` has an empty body, so the PETSc branch returns `None`; an `A`
matching none of the three tests falls off the end of the function, which in
Python also returns `None`.  No branch raises an `Unsupported`-style error.
-/
def ProductDirichletBC.apply {α : Type} [Inhabited α]
    (bc : ProductDirichletBC α) (A : SysMat) (b : List ℚ) : ApplyResult :=
  match A with
  | .sparse M =>
    match bc.sparse_apply M b with
    | .ok (M', b') => .ok (.sparse M') b'
    | .error err => .raised err
  | .dense D =>
    match bc.dense_apply D b with
    | .ok (D', b') => .ok (.dense D') b'
    | .error err => .raised err
  | .petscMat => .pyNone
  | .other => .pyNone

/-- `Solver.solve(A, b)`:

```python
if isinstance(A, np.ndarray):  u = self.dense_solve(A, b)
elif sps.issparse(A):          u = self.sparse_solve(A, b)
elif isinstance(A, PETSc.Mat): u = self.petsc_solve(A, b)[:]
return to_Function(u, self.W)
```

The three backends (`np.linalg.solve`, `sps.linalg.spsolve`, a PETSc KSP
solve) and the final `to_Function` wrapping are external numerical
collaborators, taken as parameters.  When `A` matches none of the tests the
local `u` is never assigned and the `return` line raises
`UnboundLocalError`. -/
def Solver.solve (dense_solve : List (List ℚ) → List ℚ → List ℚ)
    (sparse_solve : SpMat → List ℚ → List ℚ)
    (petsc_solve : List ℚ → List ℚ)
    (A : SysMat) (b : List ℚ) : Except PyErr (List ℚ) :=
  match A with
  | .dense D => .ok (dense_solve D b)
  | .sparse M => .ok (sparse_solve M b)
  | .petscMat => .ok (petsc_solve b)
  | .other => .error .unboundLocalError

/-! ### Object-identity tracking for the ownership claims

The value-level models above say nothing about which Python *objects* are
written.  The observations below additionally record, per call, the contents
of the caller's argument objects after the call and whether the returned
objects are the caller's.  The identity facts encoded:

* numpy row/entry assignment (`A[ij] = ...`, `b[ij] = ...`) writes the
  caller's arrays in place, and `dense_apply` ends with `return A, b` — the
  same objects;
* `A.tolil()` on a scipy sparse matrix returns `A` itself when `A` is
  already in `lil` format (scipy's `tolil(copy=False)` returns `self`), and
  otherwise builds a fresh `lil` matrix, leaving the caller's object
  untouched;
* `.tocsr()` on a `lil` matrix always builds a fresh `csr` matrix, so the
  matrix `sparse_apply` returns is never the caller's object. -/

/-- Observations of one `dense_apply` call. -/
structure DenseObs where
  callerA : List (List ℚ)
  ret : List (List ℚ)
  retIsCallerA : Bool
  callerB : List ℚ
  retBIsCallerB : Bool
deriving DecidableEq, Repr

/-- Observations of one `sparse_apply` call. -/
structure SparseObs where
  callerA : SpMat
  ret : SpMat
  retIsCallerA : Bool
  callerB : List ℚ
  retBIsCallerB : Bool
deriving DecidableEq, Repr

/-- `dense_apply` with object identity tracked: the row writes mutate the
caller's `A` and `b`, and `return A, b` hands those same objects back. -/
def ProductDirichletBC.dense_apply_tracked {α : Type} [Inhabited α]
    (bc : ProductDirichletBC α) (A : List (List ℚ)) (b : List ℚ) :
    Except PyErr DenseObs :=
  match bc.dense_apply A b with
  | .ok (A', b') =>
    .ok { callerA := A', ret := A', retIsCallerA := true,
          callerB := b', retBIsCallerB := true }
  | .error err => .error err

/-- `sparse_apply` with object identity tracked.  `A = A.tolil()` rebinds the
local name: when the input is already `lil` the local is the caller's object
and the row writes mutate it; for any other format the edits land in a fresh
`lil` copy and the caller's matrix keeps its original contents.  The
returned matrix is the fresh result of `.tocsr()` in either case, while `b`
is written in place and returned as the same object. -/
def ProductDirichletBC.sparse_apply_tracked {α : Type} [Inhabited α]
    (bc : ProductDirichletBC α) (M : SpMat) (b : List ℚ) :
    Except PyErr SparseObs :=
  match applyLoop (fun ij => [(ij, (1 : ℚ))])
      (bc.get_product_boundary_dofs.zip bc.bvs) M.rows b with
  | .ok (rows', b') =>
    .ok { callerA :=
            if M.fmt = .lil then { ncols := M.ncols, rows := rows', fmt := .lil }
            else M,
          ret := { ncols := M.ncols, rows := rows', fmt := .csr },
          retIsCallerA := false,
          callerB := b', retBIsCallerB := true }
  | .error err => .error err

/-! ### Matrix–vector product (for stating that equal applied systems have
equal solution sets) -/

/-- Dot product of a dense row with a vector. -/
def dotList (r u : List ℚ) : ℚ :=
  ((r.zip u).map (fun p => p.1 * p.2)).sum

/-- Dense matrix–vector product. -/
def matVec (A : List (List ℚ)) (u : List ℚ) : List ℚ :=
  A.map (fun r => dotList r u)

/-- Decidable equality of `Except` values, so that results of the embedded
fallible operations can be compared by `decide`. -/
instance {ε σ : Type} [DecidableEq ε] [DecidableEq σ] : DecidableEq (Except ε σ) :=
  fun x y =>
    match x, y with
    | .ok a, .ok b => if h : a = b then isTrue (by rw [h]) else isFalse (by simp [h])
    | .ok _, .error _ => isFalse (by simp)
    | .error _, .ok _ => isFalse (by simp)
    | .error e1, .error e2 =>
      if h : e1 = e2 then isTrue (by rw [h]) else isFalse (by simp [h])

end ProductFem

namespace ProductFem

/-! ## Library-style helper lemmas on `getD`, `set`, `zip`, `range` -/

theorem getD_set_self {γ : Type} (l : List γ) (i : ℕ) (a d : γ) (h : i < l.length) :
    (l.set i a).getD i d = a := by
  simp [List.getD_eq_getElem?_getD, List.getElem?_set_self, h]

theorem getD_set_ne {γ : Type} (l : List γ) (i j : ℕ) (a d : γ) (h : i ≠ j) :
    (l.set i a).getD j d = l.getD j d := by
  simp [List.getD_eq_getElem?_getD, List.getElem?_set_ne h]

theorem getD_map_of_lt {γ δ : Type} (l : List γ) (f : γ → δ) (k : ℕ) (d : δ) (d' : γ)
    (h : k < l.length) : (l.map f).getD k d = f (l.getD k d') := by
  simp [List.getD_eq_getElem?_getD, List.getElem?_map, List.getElem?_eq_getElem h]

theorem zip_getD {γ δ : Type} (dg : γ) (dd : δ) :
    ∀ (l1 : List γ) (l2 : List δ) (k : ℕ), k < l1.length → k < l2.length →
      (l1.zip l2).getD k (dg, dd) = (l1.getD k dg, l2.getD k dd) := by
  intro l1
  induction l1 with
  | nil => intro l2 k h1 _; simp at h1
  | cons a t ih =>
    intro l2 k h1 h2
    cases l2 with
    | nil => simp at h2
    | cons b t2 =>
      cases k with
      | zero => simp [List.zip_cons_cons]
      | succ k =>
        simp only [List.zip_cons_cons, List.getD_cons_succ]
        exact ih t2 k (by simpa using h1) (by simpa using h2)

theorem getD_mem {γ : Type} (l : List γ) (k : ℕ) (d : γ) (h : k < l.length) :
    l.getD k d ∈ l := by
  rw [List.getD_eq_getElem l d h]
  exact List.getElem_mem h

theorem range_getD (n i d : ℕ) (h : i < n) : (List.range n).getD i d = i := by
  rw [List.getD_eq_getElem _ d (by simpa using h)]
  simp

/-- List extensionality through `getD` at a fixed default. -/
theorem ext_of_getD {γ : Type} (d : γ) (l1 l2 : List γ) (hlen : l1.length = l2.length)
    (h : ∀ j, j < l1.length → l1.getD j d = l2.getD j d) : l1 = l2 := by
  refine List.ext_getElem hlen (fun i h1 h2 => ?_)
  have := h i h1
  rwa [List.getD_eq_getElem l1 d h1, List.getD_eq_getElem l2 d h2] at this

/-! ## Properties of the boundary-dof enumeration -/

theorem mem_dofsAux_ge {β : Type} (p : β → Bool) :
    ∀ (l : List β) (i j : ℕ), j ∈ dofsAux p i l → i ≤ j := by
  intro l
  induction l with
  | nil => intro i j h; simp [dofsAux] at h
  | cons x t ih =>
    intro i j h
    by_cases hx : p x
    · simp only [dofsAux, hx, if_true, List.mem_cons] at h
      rcases h with rfl | h
      · exact le_refl j
      · exact le_trans (Nat.le_succ i) (ih (i + 1) j h)
    · simp only [dofsAux, hx, if_false] at h
      exact le_trans (Nat.le_succ i) (ih (i + 1) j h)

/-- Membership in the enumeration loop's output: exactly the table positions
(offset by the starting counter) at which the predicate holds. -/
theorem mem_dofsAux {β : Type} (p : β → Bool) (dflt : β) :
    ∀ (l : List β) (i j : ℕ),
      j ∈ dofsAux p i l ↔ ∃ k, k < l.length ∧ j = i + k ∧ p (l.getD k dflt) = true := by
  intro l
  induction l with
  | nil => intro i j; simp [dofsAux]
  | cons x t ih =>
    intro i j
    by_cases hx : p x
    · simp only [dofsAux, hx, if_true, List.mem_cons]
      constructor
      · rintro (rfl | hj)
        · exact ⟨0, by simp, by simp, by simpa using hx⟩
        · obtain ⟨k, hk, rfl, hpk⟩ := (ih (i + 1) _).mp hj
          exact ⟨k + 1, by simpa using hk, by omega, by simpa using hpk⟩
      · rintro ⟨k, hk, rfl, hpk⟩
        cases k with
        | zero => left; omega
        | succ k =>
          right
          refine (ih (i + 1) _).mpr ⟨k, by simpa using hk, by omega, ?_⟩
          simpa using hpk
    · simp only [dofsAux, hx, if_false]
      constructor
      · intro hj
        obtain ⟨k, hk, rfl, hpk⟩ := (ih (i + 1) _).mp hj
        exact ⟨k + 1, by simpa using hk, by omega, by simpa using hpk⟩
      · rintro ⟨k, hk, rfl, hpk⟩
        cases k with
        | zero =>
          simp only [List.getD_cons_zero] at hpk
          exact absurd hpk (by simpa using hx)
        | succ k =>
          refine (ih (i + 1) _).mpr ⟨k, by simpa using hk, by omega, ?_⟩
          simpa using hpk

theorem dofsAux_sorted {β : Type} (p : β → Bool) :
    ∀ (l : List β) (i : ℕ), (dofsAux p i l).Sorted (· < ·) := by
  intro l
  induction l with
  | nil => intro i; simp [dofsAux]
  | cons x t ih =>
    intro i
    by_cases hx : p x
    · simp only [dofsAux, hx, if_true]
      refine List.sorted_cons.mpr ⟨fun b hb => ?_, ih (i + 1)⟩
      exact lt_of_lt_of_le (Nat.lt_succ_self i) (mem_dofsAux_ge p t (i + 1) b hb)
    · simp only [dofsAux, hx, if_false]
      exact ih (i + 1)

theorem dofsAux_nil {β : Type} (p : β → Bool) :
    ∀ (l : List β) (i : ℕ), (∀ x ∈ l, p x = false) → dofsAux p i l = [] := by
  intro l
  induction l with
  | nil => intro i _; simp [dofsAux]
  | cons x t ih =>
    intro i h
    have hx : p x = false := h x (by simp)
    simp only [dofsAux, hx, Bool.false_eq_true, if_false]
    exact ih (i + 1) (fun y hy => h y (by simp [hy]))

end ProductFem

namespace ProductFem

/-! ## Characterization of the row-replacement loop -/

/-- The loop only ever raises `IndexError`. -/
theorem applyLoop_error {ρ : Type} (rowOf : ℕ → ρ) :
    ∀ (l : List (ℕ × ℚ)) (A : List ρ) (b : List ℚ) (e : PyErr),
      applyLoop rowOf l A b = .error e → e = .indexError := by
  intro l
  induction l with
  | nil => intro A b e h; simp [applyLoop] at h
  | cons q rest ih =>
    intro A b e h
    obtain ⟨ij, v⟩ := q
    by_cases h1 : ij < A.length
    · by_cases h2 : ij < b.length
      · simp only [applyLoop, if_pos h1, if_pos h2] at h
        exact ih _ _ e h
      · simp only [applyLoop, if_pos h1, if_neg h2, Except.error.injEq] at h
        exact h.symm
    · simp only [applyLoop, if_neg h1, Except.error.injEq] at h
      exact h.symm

/-- Full characterization of a successful run of the row-replacement loop:
when every target index is in range and the indices are distinct, the loop
succeeds, preserves lengths, overwrites exactly the targeted rows of `A`
(each with its replacement row) and entries of `b` (each with its paired
value), and leaves everything else unchanged. -/
theorem applyLoop_spec {ρ : Type} (rowOf : ℕ → ρ) :
    ∀ (l : List (ℕ × ℚ)) (A : List ρ) (b : List ℚ),
      (∀ q ∈ l, q.1 < A.length) → (∀ q ∈ l, q.1 < b.length) →
      (l.map Prod.fst).Nodup →
      ∃ A' b', applyLoop rowOf l A b = .ok (A', b')
        ∧ A'.length = A.length ∧ b'.length = b.length
        ∧ (∀ (dR : ρ) (j : ℕ), j ∈ l.map Prod.fst → A'.getD j dR = rowOf j)
        ∧ (∀ (dR : ρ) (j : ℕ), j ∉ l.map Prod.fst → A'.getD j dR = A.getD j dR)
        ∧ (∀ q ∈ l, b'.getD q.1 0 = q.2)
        ∧ (∀ j : ℕ, j ∉ l.map Prod.fst → b'.getD j 0 = b.getD j 0) := by
  intro l
  induction l with
  | nil =>
    intro A b _ _ _
    exact ⟨A, b, rfl, rfl, rfl, by simp, by simp, by simp, by simp⟩
  | cons q rest ih =>
    intro A b hA hb hnd
    obtain ⟨ij, v⟩ := q
    have hijA : ij < A.length := hA (ij, v) (by simp)
    have hijb : ij < b.length := hb (ij, v) (by simp)
    have hnd' : ij ∉ rest.map Prod.fst ∧ (rest.map Prod.fst).Nodup := by
      simpa using hnd
    obtain ⟨A', b', heq, hlenA, hlenB, hAin, hAout, hbin, hbout⟩ :=
      ih (A.set ij (rowOf ij)) (b.set ij v)
        (fun q hq => by simpa using hA q (by simp [hq]))
        (fun q hq => by simpa using hb q (by simp [hq]))
        hnd'.2
    refine ⟨A', b', ?_, by simpa using hlenA, by simpa using hlenB, ?_, ?_, ?_, ?_⟩
    · simp only [applyLoop, if_pos hijA, if_pos hijb]
      exact heq
    · intro dR j hj
      simp only [List.map_cons, List.mem_cons] at hj
      rcases hj with rfl | hj
      · rw [hAout dR j hnd'.1, getD_set_self A j (rowOf j) dR hijA]
      · exact hAin dR j hj
    · intro dR j hj
      simp only [List.map_cons, List.mem_cons] at hj
      push_neg at hj
      rw [hAout dR j hj.2, getD_set_ne A ij j (rowOf ij) dR (Ne.symm hj.1)]
    · intro q hq
      simp only [List.mem_cons] at hq
      rcases hq with rfl | hq
      · rw [hbout ij hnd'.1, getD_set_self b ij v 0 hijb]
      · exact hbin q hq
    · intro j hj
      simp only [List.map_cons, List.mem_cons] at hj
      push_neg at hj
      rw [hbout j hj.2, getD_set_ne b ij j v 0 (Ne.symm hj.1)]

end ProductFem

namespace ProductFem

/-! ## Corollaries at the `ProductDirichletBC` level -/

variable {α : Type}

theorem dofs_sorted (bc : ProductDirichletBC α) :
    bc.get_product_boundary_dofs.Sorted (· < ·) :=
  dofsAux_sorted _ bc.dof_coords 0

theorem dofs_nodup (bc : ProductDirichletBC α) :
    bc.get_product_boundary_dofs.Nodup :=
  (dofs_sorted bc).nodup

theorem mem_dofs_iff [Inhabited α] (bc : ProductDirichletBC α) (j : ℕ) :
    j ∈ bc.get_product_boundary_dofs ↔
      j < bc.dof_coords.length ∧
        bc.on_boundary (bc.dof_coords.getD j default).1
          (bc.dof_coords.getD j default).2 = true := by
  rw [ProductDirichletBC.get_product_boundary_dofs,
    mem_dofsAux (fun xy => bc.on_boundary xy.1 xy.2) default bc.dof_coords 0 j]
  constructor
  · rintro ⟨k, hk, hkj, hp⟩
    obtain rfl : k = j := by omega
    exact ⟨hk, hp⟩
  · rintro ⟨hj, hp⟩
    exact ⟨j, hj, by omega, hp⟩

theorem mem_dofs_lt (bc : ProductDirichletBC α) [Inhabited α] (j : ℕ)
    (h : j ∈ bc.get_product_boundary_dofs) : j < bc.dof_coords.length :=
  ((mem_dofs_iff bc j).mp h).1

theorem coords_length [Inhabited α] (bc : ProductDirichletBC α) :
    bc.get_product_boundary_coords.length = bc.get_product_boundary_dofs.length := by
  simp [ProductDirichletBC.get_product_boundary_coords]

theorem bvs_length [Inhabited α] (bc : ProductDirichletBC α) :
    bc.bvs.length = bc.get_product_boundary_dofs.length := by
  simp [ProductDirichletBC.bvs, coords_length]

theorem coords_getD [Inhabited α] (bc : ProductDirichletBC α) (k : ℕ)
    (hk : k < bc.get_product_boundary_dofs.length) :
    bc.get_product_boundary_coords.getD k default =
      bc.dof_coords.getD (bc.get_product_boundary_dofs.getD k 0) default := by
  rw [ProductDirichletBC.get_product_boundary_coords]
  exact getD_map_of_lt _ _ k default 0 hk

theorem bvs_getD [Inhabited α] (bc : ProductDirichletBC α) (k : ℕ)
    (hk : k < bc.get_product_boundary_dofs.length) :
    bc.bvs.getD k 0 =
      bc.boundary_values (bc.get_product_boundary_coords.getD k default).1
        (bc.get_product_boundary_coords.getD k default).2 := by
  rw [ProductDirichletBC.bvs]
  exact getD_map_of_lt _ _ k 0 default (by rwa [coords_length])

/-- The index/value pair list the apply loops run over: its first components
are exactly the boundary-dof indices. -/
theorem zipPairs_map_fst [Inhabited α] (bc : ProductDirichletBC α) :
    ((bc.get_product_boundary_dofs.zip bc.bvs).map Prod.fst) =
      bc.get_product_boundary_dofs :=
  List.map_fst_zip _ _ (le_of_eq (bvs_length bc).symm)

theorem zipPairs_length [Inhabited α] (bc : ProductDirichletBC α) :
    (bc.get_product_boundary_dofs.zip bc.bvs).length =
      bc.get_product_boundary_dofs.length := by
  simp [bvs_length bc]

theorem zipPairs_getD [Inhabited α] (bc : ProductDirichletBC α) (k : ℕ)
    (hk : k < bc.get_product_boundary_dofs.length) :
    (bc.get_product_boundary_dofs.zip bc.bvs).getD k (0, 0) =
      (bc.get_product_boundary_dofs.getD k 0, bc.bvs.getD k 0) :=
  zip_getD 0 0 _ _ k hk (by rwa [bvs_length])

theorem zipPairs_mem_fst_lt [Inhabited α] (bc : ProductDirichletBC α)
    (q : ℕ × ℚ) (hq : q ∈ bc.get_product_boundary_dofs.zip bc.bvs) :
    q.1 < bc.dof_coords.length := by
  have : q.1 ∈ (bc.get_product_boundary_dofs.zip bc.bvs).map Prod.fst :=
    List.mem_map_of_mem Prod.fst hq
  rw [zipPairs_map_fst bc] at this
  exact mem_dofs_lt bc q.1 this

/-! ## Shape of the replacement rows -/

theorem eyeRow_length (n i : ℕ) : (eyeRow n i).length = n := by
  simp [eyeRow]

theorem eyeRow_getD (n i j : ℕ) (h : j < n) :
    (eyeRow n i).getD j 0 = if j = i then 1 else 0 := by
  rw [eyeRow, getD_map_of_lt (List.range n) _ j 0 0 (by simpa using h),
    range_getD n j 0 h]

theorem rowVal_single (i j : ℕ) :
    rowVal [(i, (1 : ℚ))] j = if j = i then 1 else 0 := by
  by_cases h : i = j
  · subst h
    simp [rowVal, List.find?]
  · have hbeq : ((i, (1 : ℚ)).1 == j) = false := by simpa using h
    simp [rowVal, List.find?, hbeq, Ne.symm h]

theorem denseRowOf_single (n i : ℕ) :
    denseRowOf n [(i, (1 : ℚ))] = eyeRow n i := by
  simp only [denseRowOf, eyeRow]
  exact List.map_congr_left (fun j _ => rowVal_single i j)

theorem toDense_length (M : SpMat) : M.toDense.length = M.rows.length := by
  simp [SpMat.toDense]

theorem toDense_getD (M : SpMat) (j : ℕ) (h : j < M.rows.length) :
    M.toDense.getD j [] = denseRowOf M.ncols (M.rows.getD j []) := by
  rw [SpMat.toDense]
  exact getD_map_of_lt M.rows (denseRowOf M.ncols) j [] [] h

end ProductFem

namespace ProductFem

/-! ## The apply loop specialized to a boundary condition -/

theorem mem_exists_getD (l : List ℕ) (j : ℕ) (h : j ∈ l) :
    ∃ k, k < l.length ∧ l.getD k 0 = j := by
  obtain ⟨i, hi, hval⟩ := List.mem_iff_getElem.mp h
  exact ⟨i, hi, by rw [List.getD_eq_getElem l 0 hi, hval]⟩

/-- `applyLoop` over a boundary condition's index/value pairs, for a system
whose dimension is at least the dof-coordinate table's length: it succeeds,
replaces exactly the boundary rows and entries, and leaves the rest alone. -/
theorem bc_applyLoop_spec {α : Type} [Inhabited α] (bc : ProductDirichletBC α)
    {ρ : Type} (rowOf : ℕ → ρ) (A : List ρ) (b : List ℚ)
    (hA : bc.dof_coords.length ≤ A.length) (hb : bc.dof_coords.length ≤ b.length) :
    ∃ A' b',
      applyLoop rowOf (bc.get_product_boundary_dofs.zip bc.bvs) A b = .ok (A', b')
      ∧ A'.length = A.length ∧ b'.length = b.length
      ∧ (∀ (dR : ρ) (j : ℕ), j ∈ bc.get_product_boundary_dofs → A'.getD j dR = rowOf j)
      ∧ (∀ (dR : ρ) (j : ℕ), j ∉ bc.get_product_boundary_dofs → A'.getD j dR = A.getD j dR)
      ∧ (∀ k, k < bc.get_product_boundary_dofs.length →
          b'.getD (bc.get_product_boundary_dofs.getD k 0) 0 = bc.bvs.getD k 0)
      ∧ (∀ j : ℕ, j ∉ bc.get_product_boundary_dofs → b'.getD j 0 = b.getD j 0) := by
  obtain ⟨A', b', heq, hlenA, hlenB, hAin, hAout, hbin, hbout⟩ :=
    applyLoop_spec rowOf (bc.get_product_boundary_dofs.zip bc.bvs) A b
      (fun q hq => lt_of_lt_of_le (zipPairs_mem_fst_lt bc q hq) hA)
      (fun q hq => lt_of_lt_of_le (zipPairs_mem_fst_lt bc q hq) hb)
      (by rw [zipPairs_map_fst]; exact dofs_nodup bc)
  rw [zipPairs_map_fst] at hAin hAout hbout
  refine ⟨A', b', heq, hlenA, hlenB, hAin, hAout, ?_, hbout⟩
  intro k hk
  have hmem : (bc.get_product_boundary_dofs.getD k 0, bc.bvs.getD k 0) ∈
      bc.get_product_boundary_dofs.zip bc.bvs := by
    rw [← zipPairs_getD bc k hk]
    exact getD_mem _ k (0, 0) (by rwa [zipPairs_length])
  exact hbin _ hmem

/-! ## Claim C1 -/

/-- C1: for a square system whose dimension equals the dof-coordinate table
length, after `dense_apply` (resp. `sparse_apply`) every boundary-dof row of
the matrix is the standard basis row at that index (1 on the diagonal, 0 at
every other column) and the right-hand side at that index carries the k-th
boundary value, where k is the index's position in
`get_product_boundary_dofs`. -/
theorem boundary_rows_become_basis_rows {α : Type} [Inhabited α]
    (bc : ProductDirichletBC α) (A : List (List ℚ)) (b : List ℚ)
    (M : SpMat) (bs : List ℚ)
    (hA : A.length = bc.dof_coords.length) (hb : b.length = bc.dof_coords.length)
    (hM : M.rows.length = bc.dof_coords.length) (hbs : bs.length = bc.dof_coords.length) :
    (∃ A' b', bc.dense_apply A b = .ok (A', b')
      ∧ ∀ k, k < bc.get_product_boundary_dofs.length →
          (∀ j, j < A.length →
            (A'.getD (bc.get_product_boundary_dofs.getD k 0) []).getD j 0 =
              if j = bc.get_product_boundary_dofs.getD k 0 then 1 else 0)
          ∧ b'.getD (bc.get_product_boundary_dofs.getD k 0) 0 = bc.bvs.getD k 0)
    ∧ (∃ M' bs', bc.sparse_apply M bs = .ok (M', bs')
      ∧ ∀ k, k < bc.get_product_boundary_dofs.length →
          (∀ j, rowVal (M'.rows.getD (bc.get_product_boundary_dofs.getD k 0) []) j =
              if j = bc.get_product_boundary_dofs.getD k 0 then 1 else 0)
          ∧ bs'.getD (bc.get_product_boundary_dofs.getD k 0) 0 = bc.bvs.getD k 0) := by
  constructor
  · obtain ⟨A', b', heq, _, _, hAin, _, hbk, _⟩ :=
      bc_applyLoop_spec bc (fun ij => eyeRow A.length ij) A b (le_of_eq hA.symm)
        (le_of_eq hb.symm)
    refine ⟨A', b', heq, fun k hk => ⟨fun j hj => ?_, hbk k hk⟩⟩
    have hmem : bc.get_product_boundary_dofs.getD k 0 ∈ bc.get_product_boundary_dofs :=
      getD_mem _ k 0 hk
    rw [hAin [] _ hmem]
    exact eyeRow_getD A.length _ j hj
  · obtain ⟨rows', bs', heq, _, _, hAin, _, hbk, _⟩ :=
      bc_applyLoop_spec bc (fun ij => [(ij, (1 : ℚ))]) M.rows bs (le_of_eq hM.symm)
        (le_of_eq hbs.symm)
    refine ⟨{ ncols := M.ncols, rows := rows', fmt := .csr }, bs', ?_,
      fun k hk => ⟨fun j => ?_, hbk k hk⟩⟩
    · rw [ProductDirichletBC.sparse_apply, heq]
    · have hmem : bc.get_product_boundary_dofs.getD k 0 ∈ bc.get_product_boundary_dofs :=
        getD_mem _ k 0 hk
      rw [show ({ ncols := M.ncols, rows := rows', fmt := .csr } : SpMat).rows = rows' from rfl,
        hAin [] _ hmem]
      exact rowVal_single _ j

/-! ## Claim C2 -/

/-- C2: for a system of matching dimension, `dense_apply` and `sparse_apply`
leave every non-boundary row of the matrix and entry of the right-hand side
exactly as they were. -/
theorem nonboundary_rows_untouched {α : Type} [Inhabited α]
    (bc : ProductDirichletBC α) (A : List (List ℚ)) (b : List ℚ)
    (M : SpMat) (bs : List ℚ)
    (hA : A.length = bc.dof_coords.length) (hb : b.length = bc.dof_coords.length)
    (hM : M.rows.length = bc.dof_coords.length) (hbs : bs.length = bc.dof_coords.length) :
    (∃ A' b', bc.dense_apply A b = .ok (A', b')
      ∧ ∀ j, j ∉ bc.get_product_boundary_dofs →
          A'.getD j [] = A.getD j [] ∧ b'.getD j 0 = b.getD j 0)
    ∧ (∃ M' bs', bc.sparse_apply M bs = .ok (M', bs')
      ∧ ∀ j, j ∉ bc.get_product_boundary_dofs →
          M'.rows.getD j [] = M.rows.getD j [] ∧ bs'.getD j 0 = bs.getD j 0) := by
  constructor
  · obtain ⟨A', b', heq, _, _, _, hAout, _, hbout⟩ :=
      bc_applyLoop_spec bc (fun ij => eyeRow A.length ij) A b (le_of_eq hA.symm)
        (le_of_eq hb.symm)
    exact ⟨A', b', heq, fun j hj => ⟨hAout [] j hj, hbout j hj⟩⟩
  · obtain ⟨rows', bs', heq, _, _, _, hAout, _, hbout⟩ :=
      bc_applyLoop_spec bc (fun ij => [(ij, (1 : ℚ))]) M.rows bs (le_of_eq hM.symm)
        (le_of_eq hbs.symm)
    refine ⟨{ ncols := M.ncols, rows := rows', fmt := .csr }, bs', ?_,
      fun j hj => ⟨hAout [] j hj, hbout j hj⟩⟩
    rw [ProductDirichletBC.sparse_apply, heq]

end ProductFem

namespace ProductFem

/-! ## Lifting results through the `apply` dispatcher -/

theorem apply_dense_eq {α : Type} [Inhabited α] (bc : ProductDirichletBC α)
    (D : List (List ℚ)) (b : List ℚ) (D' : List (List ℚ)) (b' : List ℚ)
    (h : bc.dense_apply D b = .ok (D', b')) :
    bc.apply (.dense D) b = .ok (.dense D') b' := by
  simp [ProductDirichletBC.apply, h]

theorem apply_sparse_eq {α : Type} [Inhabited α] (bc : ProductDirichletBC α)
    (M : SpMat) (bs : List ℚ) (M' : SpMat) (bs' : List ℚ)
    (h : bc.sparse_apply M bs = .ok (M', bs')) :
    bc.apply (.sparse M) bs = .ok (.sparse M') bs' := by
  simp [ProductDirichletBC.apply, h]

theorem sparse_apply_eq_of_loop {α : Type} [Inhabited α] (bc : ProductDirichletBC α)
    (M : SpMat) (bs : List ℚ) (rows' : List (List (ℕ × ℚ))) (bs' : List ℚ)
    (h : applyLoop (fun ij => [(ij, (1 : ℚ))])
        (bc.get_product_boundary_dofs.zip bc.bvs) M.rows bs = .ok (rows', bs')) :
    bc.sparse_apply M bs = .ok ({ ncols := M.ncols, rows := rows', fmt := .csr }, bs') := by
  rw [ProductDirichletBC.sparse_apply, h]

/-! ## Idempotence of the row-replacement loop -/

/-- Re-running the loop on its own output changes nothing: every boundary row
already holds its replacement row and every boundary entry its value. -/
theorem bc_applyLoop_idem {α : Type} [Inhabited α] (bc : ProductDirichletBC α)
    {ρ : Type} (dflt : ρ) (rowOf : ℕ → ρ) (A : List ρ) (b : List ℚ)
    (A1 : List ρ) (b1 : List ℚ)
    (hA : bc.dof_coords.length ≤ A.length) (hb : bc.dof_coords.length ≤ b.length)
    (h1 : applyLoop rowOf (bc.get_product_boundary_dofs.zip bc.bvs) A b = .ok (A1, b1)) :
    applyLoop rowOf (bc.get_product_boundary_dofs.zip bc.bvs) A1 b1 = .ok (A1, b1) := by
  obtain ⟨A1', b1', heq, hlenA, hlenB, hAin, hAout, hbk, hbout⟩ :=
    bc_applyLoop_spec bc rowOf A b hA hb
  rw [heq] at h1
  obtain ⟨h1a, h1b⟩ := Prod.mk.inj (Except.ok.inj h1)
  rw [← h1a, ← h1b]
  obtain ⟨A2, b2, heq2, hlen2A, hlen2B, hAin2, hAout2, hbk2, hbout2⟩ :=
    bc_applyLoop_spec bc rowOf A1' b1' (by rw [hlenA]; exact hA) (by rw [hlenB]; exact hb)
  have hA2 : A2 = A1' := by
    apply ext_of_getD dflt _ _ (by rw [hlen2A])
    intro j _
    by_cases hmem : j ∈ bc.get_product_boundary_dofs
    · rw [hAin2 dflt j hmem, hAin dflt j hmem]
    · exact hAout2 dflt j hmem
  have hb2 : b2 = b1' := by
    apply ext_of_getD 0 _ _ (by rw [hlen2B])
    intro j _
    by_cases hmem : j ∈ bc.get_product_boundary_dofs
    · obtain ⟨k, hk, hkj⟩ := mem_exists_getD _ j hmem
      rw [← hkj, hbk2 k hk, hbk k hk]
    · exact hbout2 j hmem
  rw [heq2, hA2, hb2]

/-! ## Claim C5 -/

/-- C5: on a system of matching dimension, applying the boundary condition
twice (dense or sparse path) produces exactly the result of applying it
once — boundary rows and right-hand-side entries are overwritten, not
accumulated. -/
theorem apply_idempotent {α : Type} [Inhabited α] (bc : ProductDirichletBC α)
    (D : List (List ℚ)) (b : List ℚ) (M : SpMat) (bs : List ℚ)
    (hD : D.length = bc.dof_coords.length) (hb : b.length = bc.dof_coords.length)
    (hM : M.rows.length = bc.dof_coords.length) (hbs : bs.length = bc.dof_coords.length) :
    (∃ D1 b1, bc.apply (.dense D) b = .ok (.dense D1) b1
      ∧ bc.apply (.dense D1) b1 = .ok (.dense D1) b1)
    ∧ (∃ M1 b1, bc.apply (.sparse M) bs = .ok (.sparse M1) b1
      ∧ bc.apply (.sparse M1) b1 = .ok (.sparse M1) b1) := by
  constructor
  · obtain ⟨D1, b1, h1, hlenA, hlenB, _, _, _, _⟩ :=
      bc_applyLoop_spec bc (fun ij => eyeRow D.length ij) D b (le_of_eq hD.symm)
        (le_of_eq hb.symm)
    have hsecond : bc.dense_apply D1 b1 = .ok (D1, b1) := by
      rw [ProductDirichletBC.dense_apply, hlenA]
      exact bc_applyLoop_idem bc [] _ D b D1 b1 (le_of_eq hD.symm) (le_of_eq hb.symm) h1
    exact ⟨D1, b1, apply_dense_eq bc D b D1 b1 h1, apply_dense_eq bc D1 b1 D1 b1 hsecond⟩
  · obtain ⟨rows1, b1, h1, hlenA, hlenB, _, _, _, _⟩ :=
      bc_applyLoop_spec bc (fun ij => [(ij, (1 : ℚ))]) M.rows bs (le_of_eq hM.symm)
        (le_of_eq hbs.symm)
    have hfirst := sparse_apply_eq_of_loop bc M bs rows1 b1 h1
    have hsecond : bc.sparse_apply { ncols := M.ncols, rows := rows1, fmt := .csr } b1 =
        .ok ({ ncols := M.ncols, rows := rows1, fmt := .csr }, b1) :=
      sparse_apply_eq_of_loop bc _ b1 rows1 b1
        (bc_applyLoop_idem bc [] _ M.rows bs rows1 b1 (le_of_eq hM.symm)
          (le_of_eq hbs.symm) h1)
    exact ⟨_, b1, apply_sparse_eq bc M bs _ b1 hfirst,
      apply_sparse_eq bc _ b1 _ b1 hsecond⟩

end ProductFem

namespace ProductFem

/-! ## Claim C6 -/

/-- C6: for a square system of matching dimension, applying the boundary
condition through `sparse_apply` and, to the dense reading of the same
matrix, through `dense_apply`, yields entrywise-identical results (the dense
result is exactly the dense reading of the sparse result, and the two
right-hand sides are equal), so a vector solves the one applied system iff it
solves the other. -/
theorem sparse_dense_equivalent {α : Type} [Inhabited α] (bc : ProductDirichletBC α)
    (M : SpMat) (b : List ℚ)
    (hsq : M.rows.length = M.ncols)
    (hM : M.rows.length = bc.dof_coords.length)
    (hb : b.length = bc.dof_coords.length) :
    ∃ M' b' D' b'', bc.sparse_apply M b = .ok (M', b')
      ∧ bc.dense_apply M.toDense b = .ok (D', b'')
      ∧ D' = M'.toDense ∧ b'' = b'
      ∧ (∀ u, matVec D' u = b'' ↔ matVec M'.toDense u = b') := by
  obtain ⟨rows', bs', hs, hslenA, hslenB, hsin, hsout, hsbk, hsbout⟩ :=
    bc_applyLoop_spec bc (fun ij => [(ij, (1 : ℚ))]) M.rows b (le_of_eq hM.symm)
      (le_of_eq hb.symm)
  have hdlen : M.toDense.length = M.rows.length := toDense_length M
  obtain ⟨D', b'', hd, hdlenA, hdlenB, hdin, hdout, hdbk, hdbout⟩ :=
    bc_applyLoop_spec bc (fun ij => eyeRow M.toDense.length ij) M.toDense b
      (by rw [hdlen]; exact le_of_eq hM.symm) (le_of_eq hb.symm)
  have hM' : bc.sparse_apply M b = .ok ({ ncols := M.ncols, rows := rows', fmt := .csr }, bs') :=
    sparse_apply_eq_of_loop bc M b rows' bs' hs
  have hD : bc.dense_apply M.toDense b = .ok (D', b'') := hd
  have hbEq : b'' = bs' := by
    apply ext_of_getD 0 _ _ (by rw [hdlenB, hslenB])
    intro j _
    by_cases hmem : j ∈ bc.get_product_boundary_dofs
    · obtain ⟨k, hk, hkj⟩ := mem_exists_getD _ j hmem
      rw [← hkj, hdbk k hk, hsbk k hk]
    · rw [hdbout j hmem, hsbout j hmem]
  have hDEq : D' = SpMat.toDense { ncols := M.ncols, rows := rows', fmt := .csr } := by
    have hlen2 : D'.length =
        (SpMat.toDense { ncols := M.ncols, rows := rows', fmt := .csr }).length := by
      rw [hdlenA, hdlen, toDense_length]
      exact hslenA.symm
    apply ext_of_getD [] _ _ hlen2
    intro j hj
    have hjM : j < M.rows.length := by
      rw [hdlenA, hdlen] at hj
      exact hj
    have hjrows' : j < rows'.length := by rwa [hslenA]
    have hr : (SpMat.toDense { ncols := M.ncols, rows := rows', fmt := .csr }).getD j [] =
        denseRowOf M.ncols (rows'.getD j []) :=
      toDense_getD { ncols := M.ncols, rows := rows', fmt := .csr } j hjrows'
    by_cases hmem : j ∈ bc.get_product_boundary_dofs
    · rw [hdin [] j hmem, hr, hsin [] j hmem, denseRowOf_single, hdlen, hsq]
    · rw [hdout [] j hmem, hr, hsout [] j hmem, toDense_getD M j hjM]
  refine ⟨_, bs', D', b'', hM', hD, hDEq, hbEq, fun u => ?_⟩
  rw [hDEq, hbEq]

/-! ## Claim C7 -/

/-- C7: when the boundary predicate is false at every entry of the
dof-coordinate table, the boundary-dof set is empty and `apply` is a no-op on
both representations: no error is raised, the dense matrix and vector come
back exactly as passed, and the sparse result carries the same entries and
shape as the input (returned, per the source, as a freshly converted
compressed matrix). -/
theorem empty_boundary_noop {α : Type} [Inhabited α] (bc : ProductDirichletBC α)
    (D : List (List ℚ)) (b : List ℚ) (M : SpMat) (bs : List ℚ)
    (hfalse : ∀ xy ∈ bc.dof_coords, bc.on_boundary xy.1 xy.2 = false) :
    bc.apply (.dense D) b = .ok (.dense D) b
    ∧ ∃ M', bc.apply (.sparse M) bs = .ok (.sparse M') bs
        ∧ M'.rows = M.rows ∧ M'.ncols = M.ncols := by
  have hdofs : bc.get_product_boundary_dofs = [] :=
    dofsAux_nil _ bc.dof_coords 0 (fun xy hxy => hfalse xy hxy)
  have hloopD : bc.dense_apply D b = .ok (D, b) := by
    rw [ProductDirichletBC.dense_apply, hdofs]
    rfl
  have hloopS : bc.sparse_apply M bs =
      .ok ({ ncols := M.ncols, rows := M.rows, fmt := .csr }, bs) := by
    rw [ProductDirichletBC.sparse_apply, hdofs]
    rfl
  exact ⟨apply_dense_eq bc D b D b hloopD,
    ⟨_, apply_sparse_eq bc M bs _ bs hloopS, rfl, rfl⟩⟩

/-! ## Claim C8 -/

/-- C8: the boundary-dof indices are strictly increasing and are exactly the
table positions at which the predicate holds; the boundary-coordinate and
boundary-value sequences have the same length as the index sequence and are
positionally aligned with it: the k-th coordinate pair is the table entry at
the k-th index, and the k-th value is the boundary-value function evaluated
at that pair. -/
theorem boundary_dof_alignment {α : Type} [Inhabited α] (bc : ProductDirichletBC α) :
    bc.get_product_boundary_dofs.Sorted (· < ·)
    ∧ (∀ i, i ∈ bc.get_product_boundary_dofs ↔
        i < bc.dof_coords.length ∧
          bc.on_boundary (bc.dof_coords.getD i default).1
            (bc.dof_coords.getD i default).2 = true)
    ∧ bc.get_product_boundary_coords.length = bc.get_product_boundary_dofs.length
    ∧ bc.bvs.length = bc.get_product_boundary_dofs.length
    ∧ (∀ k, k < bc.get_product_boundary_dofs.length →
        bc.get_product_boundary_coords.getD k default =
          bc.dof_coords.getD (bc.get_product_boundary_dofs.getD k 0) default
        ∧ bc.bvs.getD k 0 =
            bc.boundary_values (bc.get_product_boundary_coords.getD k default).1
              (bc.get_product_boundary_coords.getD k default).2) := by
  exact ⟨dofs_sorted bc, mem_dofs_iff bc, coords_length bc, bvs_length bc,
    fun k hk => ⟨coords_getD bc k hk, bvs_getD bc k hk⟩⟩

end ProductFem

namespace ProductFem

/-! ## Error behavior of the apply paths -/

theorem dense_apply_error {α : Type} [Inhabited α] (bc : ProductDirichletBC α)
    (A : List (List ℚ)) (b : List ℚ) (e : PyErr)
    (h : bc.dense_apply A b = .error e) : e = .indexError :=
  applyLoop_error _ _ _ _ e h

theorem sparse_apply_error {α : Type} [Inhabited α] (bc : ProductDirichletBC α)
    (M : SpMat) (b : List ℚ) (e : PyErr)
    (h : bc.sparse_apply M b = .error e) : e = .indexError := by
  rw [ProductDirichletBC.sparse_apply] at h
  cases hl : applyLoop (fun ij => [(ij, (1 : ℚ))])
      (bc.get_product_boundary_dofs.zip bc.bvs) M.rows b with
  | ok p =>
    rw [hl] at h
    simp at h
  | error e' =>
    rw [hl] at h
    simp only [Except.error.injEq] at h
    rw [← h]
    exact applyLoop_error _ _ _ _ e' hl

/-! ## Claim C4 (amended) -/

/-- C4 (amended): `apply` performs no dimension validation at all — it never
fails with a DimensionMismatch-style error on any input; the only error it
can raise is the IndexError produced when a boundary-dof index falls outside
the matrix or vector bounds. -/
theorem apply_never_dimension_mismatch {α : Type} [Inhabited α]
    (bc : ProductDirichletBC α) (A : SysMat) (b : List ℚ) :
    bc.apply A b ≠ .raised .dimensionMismatch
    ∧ ∀ err, bc.apply A b = .raised err → err = .indexError := by
  have key : ∀ err, bc.apply A b = .raised err → err = .indexError := by
    intro err h
    cases A with
    | dense D =>
      cases hd : bc.dense_apply D b with
      | ok p =>
        obtain ⟨D', b'⟩ := p
        rw [apply_dense_eq bc D b D' b' hd] at h
        simp at h
      | error e =>
        have happ : bc.apply (.dense D) b = .raised e := by
          simp [ProductDirichletBC.apply, hd]
        rw [happ] at h
        simp only [ApplyResult.raised.injEq] at h
        rw [← h]
        exact dense_apply_error bc D b e hd
    | sparse M =>
      cases hs : bc.sparse_apply M b with
      | ok p =>
        obtain ⟨M', bs'⟩ := p
        rw [apply_sparse_eq bc M b M' bs' hs] at h
        simp at h
      | error e =>
        have happ : bc.apply (.sparse M) b = .raised e := by
          simp [ProductDirichletBC.apply, hs]
        rw [happ] at h
        simp only [ApplyResult.raised.injEq] at h
        rw [← h]
        exact sparse_apply_error bc M b e hs
    | petscMat => simp [ProductDirichletBC.apply] at h
    | other => simp [ProductDirichletBC.apply] at h
  refine ⟨fun h => ?_, key⟩
  have := key .dimensionMismatch h
  exact absurd this (by decide)

/-! ## Concrete instances used by counterexamples and witnesses -/

/-- A boundary condition over a two-entry dof-coordinate table whose
predicate selects exactly index 0, with constant boundary value 9. -/
def bcMismatch : ProductDirichletBC ℚ :=
  { dof_coords := [(0, 0), (1, 1)],
    on_boundary := fun x _ => decide (x = 0),
    boundary_values := fun _ _ => 9 }

/-- C4 counterexample: the dof-coordinate table has length 2 while `A` is
3×3 and `b` has length 3, yet `apply` raises nothing at all — it applies the
boundary condition and returns the edited system, refuting the claim that a
dimension mismatch fails with a DimensionMismatch error. -/
theorem mismatched_dims_accepted :
    bcMismatch.dof_coords.length = 2
    ∧ ([[2, 0, 0], [0, 2, 0], [0, 0, 2]] : List (List ℚ)).length = 3
    ∧ bcMismatch.apply (.dense [[2, 0, 0], [0, 2, 0], [0, 0, 2]]) [5, 6, 7] =
        .ok (.dense [[1, 0, 0], [0, 2, 0], [0, 0, 2]]) [9, 6, 7] := by
  refine ⟨rfl, rfl, ?_⟩
  with_unfolding_all rfl

/-- C4 witness: the amended no-DimensionMismatch theorem evaluated at the
mismatched 3×3 system over the length-2 table. -/
theorem apply_never_dimension_mismatch_w :
    bcMismatch.apply (.dense [[2, 0, 0], [0, 2, 0], [0, 0, 2]]) [5, 6, 7] ≠
      .raised .dimensionMismatch :=
  (apply_never_dimension_mismatch bcMismatch
    (.dense [[2, 0, 0], [0, 2, 0], [0, 0, 2]]) [5, 6, 7]).1

/-! ## Claim C3 -/

/-- C3: contrary to the specification, nothing in the dispatch raises an
Unsupported error.  `apply` on a PETSc handle returns Python `None` (the
`petsc_apply` body is empty), `apply` on an unrecognized object falls off the
end and returns `None` without touching `A` or `b`, and `Solver.solve` on an
unrecognized object crashes with `UnboundLocalError` because the local `u`
was never assigned. -/
theorem apply_solve_fallthrough :
    bcMismatch.apply .petscMat [1, 2] = .pyNone
    ∧ bcMismatch.apply .other [1, 2] = .pyNone
    ∧ bcMismatch.apply .other [1, 2] ≠ .raised .unsupported
    ∧ Solver.solve (fun _ _ => []) (fun _ _ => []) (fun _ => []) .other [1, 2] =
        .error .unboundLocalError
    ∧ Solver.solve (fun _ _ => []) (fun _ _ => []) (fun _ => []) .other [1, 2] ≠
        .error .unsupported := by
  refine ⟨rfl, rfl, ?_, rfl, ?_⟩
  · intro h
    exact absurd h (by with_unfolding_all decide)
  · intro h
    exact absurd h (by with_unfolding_all decide)

/-! ## Claim C9 -/

/-- The predicate loop does return a boolean whenever the marginal
boundary-dof list is nonempty. -/
theorem boundaryLoop_nonempty {β : Type} (onB : β → Bool) :
    ∀ (c : β) (rest : List β), ∃ v, boundaryLoop onB (c :: rest) = .ok v := by
  intro c rest
  induction rest generalizing c with
  | nil =>
    by_cases h : onB c
    · exact ⟨true, by simp [boundaryLoop, h]⟩
    · exact ⟨onB c, by simp [boundaryLoop, h]⟩
  | cons d t ih =>
    by_cases h : onB c
    · exact ⟨true, by simp [boundaryLoop, h]⟩
    · obtain ⟨v, hv⟩ := ih d
      refine ⟨v, ?_⟩
      show (if onB c = true then (Except.ok true : Except PyErr Bool)
        else boundaryLoop onB (d :: t)) = Except.ok v
      rw [if_neg h, hv]

/-- C9: the default product-boundary predicate is not total.  With a
nonempty marginal boundary-dof list it returns a boolean, but when that list
is empty (the failing case named by the claim) the final `return on_bdy`
reads a variable no loop iteration ever assigned, and both the 1-D and 2-D
versions crash with `UnboundLocalError` instead of returning `False`. -/
theorem default_boundary_empty_crash :
    default_product_boundary_1d (fun a c => decide (a = c)) [] 0 0 =
      .error .unboundLocalError
    ∧ default_product_boundary_2d [] (0, 0) (0, 0) = .error .unboundLocalError
    ∧ (∀ (nF : ℚ → ℚ → Bool) (u w c : ℚ) (rest : List ℚ),
        ∃ v, default_product_boundary_1d nF (c :: rest) u w = .ok v) :=
  ⟨rfl, rfl, fun _ _ _ c rest => boundaryLoop_nonempty _ c rest⟩

end ProductFem

namespace ProductFem

/-! ## Claim C10 -/

/-- A boundary condition with a single dof that is always on the boundary,
with constant boundary value 4. -/
def bcOne : ProductDirichletBC ℚ :=
  { dof_coords := [(0, 0)],
    on_boundary := fun _ _ => true,
    boundary_values := fun _ _ => 4 }

/-- C10 counterexample: when the sparse input is already in list-of-lists
(lil) format, `A.tolil()` returns the caller's own object, so the row edits
land in the caller's matrix: after the call the contents seen through the
caller's reference are the edited rows, not the original ones — refuting
"apply never mutates the caller's A ... regardless of the input's sparse
format". -/
theorem lil_input_caller_mutated :
    bcOne.sparse_apply_tracked { ncols := 1, rows := [[(0, 5)]], fmt := .lil } [3] =
      .ok { callerA := { ncols := 1, rows := [[(0, 1)]], fmt := .lil },
            ret := { ncols := 1, rows := [[(0, 1)]], fmt := .csr },
            retIsCallerA := false, callerB := [4], retBIsCallerB := true }
    ∧ ([[(0, (1 : ℚ))]] : List (List (ℕ × ℚ))) ≠ [[(0, 5)]] := by
  constructor
  · with_unfolding_all rfl
  · intro h
    exact absurd h (by with_unfolding_all decide)

/-- C10 (amended): the ownership policy of `apply`, with the lil corner case
stated correctly.  Dense path: the caller's arrays are edited in place and
returned as the same objects.  Sparse path: the returned matrix is always a
freshly built csr matrix (never the caller's object, even with an empty
boundary-dof set) and `b` is edited in place and returned; the caller's
matrix keeps its original contents for every sparse format except lil — a
lil input is the very object the row edits are applied to. -/
theorem apply_ownership_policy {α : Type} [Inhabited α] (bc : ProductDirichletBC α)
    (D : List (List ℚ)) (b : List ℚ) (M : SpMat) (bs : List ℚ)
    (hD : D.length = bc.dof_coords.length) (hb : b.length = bc.dof_coords.length)
    (hM : M.rows.length = bc.dof_coords.length) (hbs : bs.length = bc.dof_coords.length) :
    (∃ obsD : DenseObs, bc.dense_apply_tracked D b = .ok obsD
      ∧ obsD.retIsCallerA = true ∧ obsD.retBIsCallerB = true
      ∧ obsD.ret = obsD.callerA)
    ∧ (∃ obsS : SparseObs, bc.sparse_apply_tracked M bs = .ok obsS
      ∧ obsS.retIsCallerA = false ∧ obsS.ret.fmt = .csr ∧ obsS.retBIsCallerB = true
      ∧ (M.fmt ≠ .lil → obsS.callerA = M)
      ∧ (M.fmt = .lil → obsS.callerA.rows = obsS.ret.rows)) := by
  constructor
  · obtain ⟨D', b', h1, _, _, _, _, _, _⟩ :=
      bc_applyLoop_spec bc (fun ij => eyeRow D.length ij) D b (le_of_eq hD.symm)
        (le_of_eq hb.symm)
    have hd : bc.dense_apply D b = .ok (D', b') := h1
    refine ⟨{ callerA := D', ret := D', retIsCallerA := true,
              callerB := b', retBIsCallerB := true }, ?_, rfl, rfl, rfl⟩
    rw [ProductDirichletBC.dense_apply_tracked, hd]
  · obtain ⟨rows', bs', h1, _, _, _, _, _, _⟩ :=
      bc_applyLoop_spec bc (fun ij => [(ij, (1 : ℚ))]) M.rows bs (le_of_eq hM.symm)
        (le_of_eq hbs.symm)
    refine ⟨{ callerA :=
                if M.fmt = .lil then { ncols := M.ncols, rows := rows', fmt := .lil }
                else M,
              ret := { ncols := M.ncols, rows := rows', fmt := .csr },
              retIsCallerA := false,
              callerB := bs', retBIsCallerB := true }, ?_, rfl, rfl, rfl, ?_, ?_⟩
    · rw [ProductDirichletBC.sparse_apply_tracked, h1]
    · intro hfmt
      simp [if_neg hfmt]
    · intro hfmt
      simp [if_pos hfmt]

/-! ## Concrete systems used by the witnesses -/

def Aw : List (List ℚ) := [[2, 3], [4, 5]]

def bw : List ℚ := [7, 8]

def Mw : SpMat := { ncols := 2, rows := [[(0, 2), (1, 3)], [(0, 4), (1, 5)]], fmt := .csr }

/-- A boundary condition whose predicate is false everywhere. -/
def bcNoBdy : ProductDirichletBC ℚ :=
  { dof_coords := [(0, 0), (1, 1)],
    on_boundary := fun _ _ => false,
    boundary_values := fun _ _ => 0 }

/-- C10 witness: the ownership-policy theorem evaluated on the length-1
table with a lil input. -/
theorem apply_ownership_policy_w :
    (∃ obsD : DenseObs, bcOne.dense_apply_tracked [[2]] [3] = .ok obsD
      ∧ obsD.retIsCallerA = true ∧ obsD.retBIsCallerB = true
      ∧ obsD.ret = obsD.callerA)
    ∧ (∃ obsS : SparseObs,
        bcOne.sparse_apply_tracked { ncols := 1, rows := [[(0, 5)]], fmt := .lil } [3] =
          .ok obsS
        ∧ obsS.retIsCallerA = false ∧ obsS.ret.fmt = .csr ∧ obsS.retBIsCallerB = true
        ∧ (SpMat.fmt { ncols := 1, rows := [[(0, 5)]], fmt := .lil } ≠ .lil →
            obsS.callerA = { ncols := 1, rows := [[(0, 5)]], fmt := .lil })
        ∧ (SpMat.fmt { ncols := 1, rows := [[(0, 5)]], fmt := .lil } = .lil →
            obsS.callerA.rows = obsS.ret.rows)) :=
  apply_ownership_policy bcOne [[2]] [3] { ncols := 1, rows := [[(0, 5)]], fmt := .lil } [3]
    rfl rfl rfl rfl

end ProductFem

namespace ProductFem

/-- C1 witness: the boundary-row replacement theorem evaluated on a concrete
2×2 dense and sparse system over the length-2 table. -/
theorem boundary_rows_become_basis_rows_w :
    (∃ A' b', bcMismatch.dense_apply Aw bw = .ok (A', b')
      ∧ ∀ k, k < bcMismatch.get_product_boundary_dofs.length →
          (∀ j, j < Aw.length →
            (A'.getD (bcMismatch.get_product_boundary_dofs.getD k 0) []).getD j 0 =
              if j = bcMismatch.get_product_boundary_dofs.getD k 0 then 1 else 0)
          ∧ b'.getD (bcMismatch.get_product_boundary_dofs.getD k 0) 0 =
              bcMismatch.bvs.getD k 0)
    ∧ (∃ M' bs', bcMismatch.sparse_apply Mw bw = .ok (M', bs')
      ∧ ∀ k, k < bcMismatch.get_product_boundary_dofs.length →
          (∀ j, rowVal (M'.rows.getD (bcMismatch.get_product_boundary_dofs.getD k 0) []) j =
              if j = bcMismatch.get_product_boundary_dofs.getD k 0 then 1 else 0)
          ∧ bs'.getD (bcMismatch.get_product_boundary_dofs.getD k 0) 0 =
              bcMismatch.bvs.getD k 0) :=
  boundary_rows_become_basis_rows bcMismatch Aw bw Mw bw rfl rfl rfl rfl

/-- C2 witness: the frame theorem evaluated on the same concrete system. -/
theorem nonboundary_rows_untouched_w :
    (∃ A' b', bcMismatch.dense_apply Aw bw = .ok (A', b')
      ∧ ∀ j, j ∉ bcMismatch.get_product_boundary_dofs →
          A'.getD j [] = Aw.getD j [] ∧ b'.getD j 0 = bw.getD j 0)
    ∧ (∃ M' bs', bcMismatch.sparse_apply Mw bw = .ok (M', bs')
      ∧ ∀ j, j ∉ bcMismatch.get_product_boundary_dofs →
          M'.rows.getD j [] = Mw.rows.getD j [] ∧ bs'.getD j 0 = bw.getD j 0) :=
  nonboundary_rows_untouched bcMismatch Aw bw Mw bw rfl rfl rfl rfl

/-- C5 witness: idempotence evaluated on the concrete system. -/
theorem apply_idempotent_w :
    (∃ D1 b1, bcMismatch.apply (.dense Aw) bw = .ok (.dense D1) b1
      ∧ bcMismatch.apply (.dense D1) b1 = .ok (.dense D1) b1)
    ∧ (∃ M1 b1, bcMismatch.apply (.sparse Mw) bw = .ok (.sparse M1) b1
      ∧ bcMismatch.apply (.sparse M1) b1 = .ok (.sparse M1) b1) :=
  apply_idempotent bcMismatch Aw bw Mw bw rfl rfl rfl rfl

/-- C6 witness: representation equivalence evaluated on the concrete sparse
system and its dense reading. -/
theorem sparse_dense_equivalent_w :
    ∃ M' b' D' b'', bcMismatch.sparse_apply Mw bw = .ok (M', b')
      ∧ bcMismatch.dense_apply Mw.toDense bw = .ok (D', b'')
      ∧ D' = M'.toDense ∧ b'' = b'
      ∧ (∀ u, matVec D' u = b'' ↔ matVec M'.toDense u = b') :=
  sparse_dense_equivalent bcMismatch Mw bw rfl rfl rfl

/-- C7 witness: the no-op theorem evaluated for the always-false predicate on
the concrete system. -/
theorem empty_boundary_noop_w :
    bcNoBdy.apply (.dense Aw) bw = .ok (.dense Aw) bw
    ∧ ∃ M', bcNoBdy.apply (.sparse Mw) bw = .ok (.sparse M') bw
        ∧ M'.rows = Mw.rows ∧ M'.ncols = Mw.ncols :=
  empty_boundary_noop bcNoBdy Aw bw Mw bw (fun _ _ => rfl)

/-- C8 witness: the alignment theorem evaluated at the concrete boundary
condition. -/
theorem boundary_dof_alignment_w :
    bcMismatch.get_product_boundary_dofs.Sorted (· < ·)
    ∧ (∀ i, i ∈ bcMismatch.get_product_boundary_dofs ↔
        i < bcMismatch.dof_coords.length ∧
          bcMismatch.on_boundary (bcMismatch.dof_coords.getD i default).1
            (bcMismatch.dof_coords.getD i default).2 = true)
    ∧ bcMismatch.get_product_boundary_coords.length =
        bcMismatch.get_product_boundary_dofs.length
    ∧ bcMismatch.bvs.length = bcMismatch.get_product_boundary_dofs.length
    ∧ (∀ k, k < bcMismatch.get_product_boundary_dofs.length →
        bcMismatch.get_product_boundary_coords.getD k default =
          bcMismatch.dof_coords.getD (bcMismatch.get_product_boundary_dofs.getD k 0) default
        ∧ bcMismatch.bvs.getD k 0 =
            bcMismatch.boundary_values
              (bcMismatch.get_product_boundary_coords.getD k default).1
              (bcMismatch.get_product_boundary_coords.getD k default).2) :=
  boundary_dof_alignment bcMismatch

end ProductFem
